import Mathlib

/-!
Verification of the earnings-summarizer repository.

This file shallowly embeds the algorithmic core of the repository:

* `PostgresRAGService.chunk_text` (src/rag_service.py, lines 31-48):
  whitespace tokenization, the stride loop over
  `range(0, len(words), max_chunk_size - overlap)` with its early break,
  and the `' '.join` of each window.  Python strings are modelled as
  `List Char`; Python's `range` with a zero step raises `ValueError`
  (modelled by `Except.error`), and with a negative step it is empty.
* `PostgresRAGService.add_earnings_embeddings` / `add_news_embeddings`
  (src/rag_service.py, lines 50-183): explicit state passing over a
  record of database tables; embedding vectors play no role in any
  claim and are omitted from the chunk rows.
* `PostgresRAGService.semantic_search` (src/rag_service.py, lines
  185-301): per-partition filter / rank / truncate queries followed by
  the global sort and truncation; similarities are modelled as `ℚ`.
* `EarningsSummarizer.determine_outlook_sentiment`
  (src/earnings_summarizer.py, lines 193-254) together with the keyword
  sets of `config/settings.py`: the LLM response is an explicit input,
  `strip` / `split` / `strip('.,!?')` / `title` are modelled on
  `List Char`, and the keyword fallback counts which keywords occur as
  substrings of the lower-cased transcript.
-/

namespace EarningsSummarizer

/-! ## Python string primitives -/

/-- Whitespace as recognised by Python's `str.split()` / `str.strip()`
(ASCII fragment, which is all the repository's data uses). -/
def isPySpace (c : Char) : Bool :=
  c = ' ' || c = '\t' || c = '\n' || c = '\r' || c = '\x0b' || c = '\x0c'

/-- Accumulator worker for `pySplit`; `acc` holds the reversed current word. -/
def pySplitAux : List Char → List Char → List (List Char)
  | [], acc => if acc = [] then [] else [acc.reverse]
  | c :: cs, acc =>
    if isPySpace c then
      if acc = [] then pySplitAux cs [] else acc.reverse :: pySplitAux cs []
    else pySplitAux cs (c :: acc)

/-- Python `text.split()` (no separator argument): split on runs of
whitespace, discarding empty fields. -/
def pySplit (l : List Char) : List (List Char) :=
  pySplitAux l []

/-- Python `' '.join(words)`. -/
def joinWords : List (List Char) → List Char
  | [] => []
  | [w] => w
  | w :: w2 :: ws => w ++ ' ' :: joinWords (w2 :: ws)

/-- Python `s.lower()` (ASCII fragment). -/
def pyLower (l : List Char) : List Char :=
  l.map Char.toLower

/-- Strip characters satisfying `p` from both ends (Python `strip`). -/
def pyStripBy (p : Char → Bool) (l : List Char) : List Char :=
  ((l.dropWhile p).reverse.dropWhile p).reverse

/-- Python `s.strip()` (whitespace). -/
def pyStrip (l : List Char) : List Char :=
  pyStripBy isPySpace l

/-- Python `s.strip('.,!?')`. -/
def stripPunct (l : List Char) : List Char :=
  pyStripBy (fun c => c = '.' || c = ',' || c = '!' || c = '?') l

/-- Worker for `pyTitle`: the flag records whether the previous character
was alphabetic. -/
def pyTitleAux : Bool → List Char → List Char
  | _, [] => []
  | prevAlpha, c :: cs =>
    if c.isAlpha then
      (if prevAlpha then c.toLower else c.toUpper) :: pyTitleAux true cs
    else c :: pyTitleAux false cs

/-- Python `s.title()` (ASCII fragment). -/
def pyTitle (l : List Char) : List Char :=
  pyTitleAux false l

/-- Python `needle in hay` substring test. -/
def containsSub (needle hay : List Char) : Bool :=
  hay.tails.any (fun t => needle.isPrefixOf t)

/-! ## The chunker (`PostgresRAGService.chunk_text`) -/

/-- The loop
`for i in range(0, len(words), step): chunk = words[i:i+M]; ...; break if i+M >= len(words)`
of `chunk_text`, rephrased over the remaining suffix `words[i:]`.
`fuel` dominates the number of iterations; the function is only used with
`rest.length ≤ fuel` and a positive step `S`, where the fuel is never
exhausted. -/
def chunkLoopF (M S : Nat) : Nat → List α → List (List α)
  | _, [] => []
  | 0, _ :: _ => []
  | fuel + 1, x :: xs =>
    let rest := x :: xs
    if rest.length ≤ M then [rest.take M]
    else rest.take M :: chunkLoopF M S fuel (rest.drop S)

/-- `PostgresRAGService.chunk_text` (src/rag_service.py lines 31-48).
`Except.error ()` models the `ValueError` Python's `range` raises on a
zero step (`max_chunk_size == overlap`); a negative step
(`max_chunk_size < overlap`) makes the `range` empty, so the function
silently returns no chunks. -/
def chunk_text (text : List Char) (max_chunk_size : Nat := 1000)
    (overlap : Nat := 100) : Except Unit (List (List Char)) :=
  if text = [] then .ok []
  else
    let words := pySplit text
    if max_chunk_size = overlap then .error ()
    else if max_chunk_size < overlap then .ok []
    else .ok ((chunkLoopF max_chunk_size (max_chunk_size - overlap)
      words.length words).map joinWords)

/-- Reassembly used to state the reconstruction guarantee: keep the first
chunk whole, drop the first `O` tokens of every later chunk, concatenate. -/
def reassemble (O : Nat) : List (List α) → List α
  | [] => []
  | c :: rest => c ++ (rest.map (List.drop O)).flatten

/-- `chunk_text` at a call site with `overlap < max_chunk_size` (all three
call sites in the repository use `overlap = 100` with sizes 1000/500/800);
on the `Except.error` branch, never reached there, it yields `[]`. -/
def chunkTextRun (text : List Char) (max_chunk_size overlap : Nat) :
    List (List Char) :=
  match chunk_text text max_chunk_size overlap with
  | .ok l => l
  | .error _ => []

/-! ## Sentiment classification (`EarningsSummarizer.determine_outlook_sentiment`) -/

/-- `settings.SENTIMENT_KEYWORDS['positive']` (config/settings.py). -/
def positiveKeywords : List (List Char) :=
  ["optimistic", "confident", "strong", "growth", "momentum",
   "pleased", "excited", "bullish", "opportunity", "progress",
   "improved", "solid", "robust", "excellent"].map String.toList

/-- `settings.SENTIMENT_KEYWORDS['negative']` (config/settings.py). -/
def negativeKeywords : List (List Char) :=
  ["challenging", "difficult", "headwinds", "pressure", "decline",
   "concerned", "cautious", "weakness", "slowdown", "uncertainty",
   "disappointing", "volatile", "risk", "struggle"].map String.toList

/-- `settings.SENTIMENT_KEYWORDS['neutral']` (config/settings.py). -/
def neutralKeywords : List (List Char) :=
  ["stable", "steady", "mixed", "balanced", "moderate",
   "consistent", "maintaining", "monitoring", "watchful"].map String.toList

/-- `positive_count` of `determine_outlook_sentiment`: the number of
positive keywords occurring in the lower-cased transcript (each keyword
counted once, via Python's `word in transcript`). -/
def positiveCount (transcriptRaw : List Char) : Nat :=
  (positiveKeywords.filter (fun w => containsSub w (pyLower transcriptRaw))).length

/-- `negative_count` of `determine_outlook_sentiment`. -/
def negativeCount (transcriptRaw : List Char) : Nat :=
  (negativeKeywords.filter (fun w => containsSub w (pyLower transcriptRaw))).length

/-- `neutral_count` of `determine_outlook_sentiment`. -/
def neutralCount (transcriptRaw : List Char) : Nat :=
  (neutralKeywords.filter (fun w => containsSub w (pyLower transcriptRaw))).length

/-- The `valid_sentiments` list of `determine_outlook_sentiment`
(src/earnings_summarizer.py lines 243-244). -/
def validSentiments : List (List Char) :=
  ["Positive", "Negative", "Neutral", "Cautious", "Bullish", "Bearish",
   "Optimistic", "Pessimistic", "Mixed", "Strong", "Weak", "Confident"].map
    String.toList

/-- The six options enumerated in the LLM prompt of
`determine_outlook_sentiment` (src/earnings_summarizer.py lines 226-231). -/
def promptSentimentOptions : List (List Char) :=
  ["Positive", "Negative", "Neutral", "Cautious", "Bullish", "Bearish"].map
    String.toList

/-- The LLM-response validation step of `determine_outlook_sentiment`
(lines 236-246): strip the raw response; if non-empty, take the first
whitespace-separated word, strip `'.,!?'`, title-case it and accept it only
when it is in `valid_sentiments`.  `none` covers both an unavailable LLM
(the Ollama client returns `""` on any failure) and an invalid word. -/
def parseLLMSentiment (raw : List Char) : Option (List Char) :=
  let result := pyStrip raw
  if result = [] then none
  else
    let firstWord := pyTitle (stripPunct ((pySplit result).headD []))
    if firstWord ∈ validSentiments then some firstWord else none

/-- The keyword fallback of `determine_outlook_sentiment` (lines 248-254). -/
def keywordFallback (positive_count negative_count neutral_count : Nat) :
    List Char :=
  if positive_count > negative_count ∧ positive_count > neutral_count then
    "Positive".toList
  else if negative_count > positive_count ∧ negative_count > neutral_count then
    "Negative".toList
  else "Neutral".toList

/-- `EarningsSummarizer.determine_outlook_sentiment`
(src/earnings_summarizer.py lines 193-254), with the raw LLM response as an
explicit input.  The prompt construction (management-statement extraction)
only affects the LLM's input, not the function's result, and is omitted. -/
def determine_outlook_sentiment (llmRaw transcriptRaw : List Char) :
    List Char :=
  match parseLLMSentiment llmRaw with
  | some w => w
  | none =>
    keywordFallback (positiveCount transcriptRaw) (negativeCount transcriptRaw)
      (neutralCount transcriptRaw)

/-! ## Database state model (src/rag_service.py write path)

Rows of the tables of config/database.py that the write path touches.
Embedding vectors are deterministic functions of the chunk text
(`SentenceTransformer.encode`) and appear in no claim, so the chunk rows
carry only the fields the claims are about. -/

/-- An `earnings_calls` row (the fields `add_earnings_embeddings` reads);
`raw_transcript = []` models both `NULL` and the empty string (both falsy
in `if earnings_call.raw_transcript`). -/
structure EarningsCallRow where
  id : Nat
  raw_transcript : List Char
deriving DecidableEq, Repr

/-- A `summaries` row. `content = []` models `NULL`/empty (falsy). -/
structure SummaryRow where
  id : Nat
  earnings_call_id : Nat
  summary_type : List Char
  content : List Char
deriving DecidableEq, Repr

/-- A `document_chunks` row (without the embedding vector). -/
structure ChunkRow where
  earnings_call_id : Nat
  chunk_text : List Char
  chunk_index : Nat
  chunk_type : List Char
deriving DecidableEq, Repr

/-- A `financial_news` row (the fields `add_news_embeddings` reads). -/
structure NewsRow where
  id : Nat
  content : List Char
deriving DecidableEq, Repr

/-- A `news_chunks` row (without the embedding vector). -/
structure NewsChunkRow where
  news_id : Nat
  chunk_text : List Char
  chunk_index : Nat
deriving DecidableEq, Repr

/-- The database state the RAG write path reads and writes. -/
structure DBState where
  calls : List EarningsCallRow
  summaries : List SummaryRow
  chunks : List ChunkRow
  news : List NewsRow
  newsChunks : List NewsChunkRow
deriving DecidableEq, Repr

/-- The transcript batch loop of `add_earnings_embeddings` (lines 77-98):
`for i in range(0, len(chunks), batch_size)` then
`for j, chunk in enumerate(batch)`, producing chunk index `i + j` for each
chunk.  Phrased over the remaining suffix, with fuel as in `chunkLoopF`. -/
def batchIdxF (b : Nat) : Nat → Nat → List α → List (Nat × α)
  | _, _, [] => []
  | 0, _, _ :: _ => []
  | fuel + 1, i, x :: xs =>
    ((x :: xs).take b).enum.map (fun p => (i + p.1, p.2))
      ++ batchIdxF b fuel (i + b) ((x :: xs).drop b)

/-- The `document_chunks` rows inserted for the transcript of one call
(batch size 10, `chunk_type='transcript'`, index `i + j`). -/
def transcriptRows (id : Nat) (tChunks : List (List Char)) : List ChunkRow :=
  (batchIdxF 10 tChunks.length 0 tChunks).map
    (fun p => ⟨id, p.2, p.1, "transcript".toList⟩)

/-- The `document_chunks` rows inserted for one summary row
(`chunk_index = j` restarting at 0, `chunk_type = 'summary_' + type`). -/
def summaryRowsFor (id : Nat) (stype : List Char)
    (sChunks : List (List Char)) : List ChunkRow :=
  sChunks.enum.map (fun p => ⟨id, p.2, p.1, "summary_".toList ++ stype⟩)

/-- The summary loop of `add_earnings_embeddings` (lines 100-123): for each
`summaries` row of the call, in table order, chunk its content (window 500,
default overlap 100) when non-empty. -/
def summaryGroups (id : Nat) (summaries : List SummaryRow) :
    List (List ChunkRow) :=
  (summaries.filter (fun s => s.earnings_call_id = id)).map
    (fun s =>
      if s.content = [] then []
      else summaryRowsFor id s.summary_type (chunkTextRun s.content 500 100))

/-- All `document_chunks` rows one run of `add_earnings_embeddings` inserts. -/
def newEarningsChunks (id : Nat) (call : EarningsCallRow)
    (summaries : List SummaryRow) (chunk_transcripts chunk_summaries : Bool) :
    List ChunkRow :=
  (if chunk_transcripts && !(call.raw_transcript = []) then
    transcriptRows id (chunkTextRun call.raw_transcript 1000 100)
  else [])
  ++ (if chunk_summaries then (summaryGroups id summaries).flatten else [])

/-- `PostgresRAGService.add_earnings_embeddings` (src/rag_service.py lines
50-133): returns the number of chunks added and the new database state.
`emb` models embedder availability (`self.embedder`); when the model failed
to load the method returns 0 without touching the store.  The per-batch
commits only matter for crash states, which the claims do not range over;
the final state is the same as committing once. -/
def add_earnings_embeddings (emb : Bool) (db : DBState)
    (earnings_call_id : Nat) (chunk_transcripts : Bool := true)
    (chunk_summaries : Bool := true) : Nat × DBState :=
  if !emb then (0, db)
  else
    match db.calls.find? (fun c => c.id = earnings_call_id) with
    | none => (0, db)
    | some call =>
      let remaining :=
        db.chunks.filter (fun c => !(c.earnings_call_id = earnings_call_id))
      let recs := newEarningsChunks earnings_call_id call db.summaries
        chunk_transcripts chunk_summaries
      (recs.length, { db with chunks := remaining ++ recs })

/-- `PostgresRAGService.add_news_embeddings` (src/rag_service.py lines
135-183): a missing article or empty content returns 0 before any deletion. -/
def add_news_embeddings (emb : Bool) (db : DBState) (news_id : Nat) :
    Nat × DBState :=
  if !emb then (0, db)
  else
    match db.news.find? (fun n => n.id = news_id) with
    | none => (0, db)
    | some article =>
      if article.content = [] then (0, db)
      else
        let remaining := db.newsChunks.filter (fun c => !(c.news_id = news_id))
        let recs := (chunkTextRun article.content 800 100).enum.map
          (fun p => NewsChunkRow.mk news_id p.2 p.1)
        (recs.length, { db with newsChunks := remaining ++ recs })

/-- The chunk rows a state holds for one earnings call. -/
def chunksFor (db : DBState) (id : Nat) : List ChunkRow :=
  db.chunks.filter (fun c => c.earnings_call_id = id)

/-- A concrete state: earnings call 1 has an empty (`NULL`) transcript, no
summaries, and one previously stored chunk. -/
def dbEmptyTranscript : DBState :=
  { calls := [⟨1, []⟩]
    summaries := []
    chunks := [⟨1, "old".toList, 0, "transcript".toList⟩]
    news := []
    newsChunks := [] }

/-! ## Retrieval (`PostgresRAGService.semantic_search`)

The ORM queries are modelled over the scored rows the database would
produce: each stored chunk paired with its cosine similarity to the query
embedding (a deterministic function of query and chunk, abstracted as the
row's score).  Similarities are `ℚ`. -/

/-- A scored `document_chunks` row as selected by the earnings-call query
(lines 217-241): the fields the filters read plus the similarity score. -/
structure ScoredDocRow where
  chunk_type : List Char
  company_symbol : List Char
  similarity : ℚ
deriving DecidableEq, Repr

/-- A scored `news_chunks` row as selected by the news query
(lines 258-275). -/
structure ScoredNewsRow where
  symbol : List Char
  similarity : ℚ
deriving DecidableEq, Repr

/-- One element of the result list of `semantic_search` (the dict built at
lines 244-254 / 278-288), reduced to the fields the claims mention. -/
inductive SearchHit where
  | earnings (chunk_type : List Char) (similarity : ℚ)
  | news (similarity : ℚ)
deriving DecidableEq, Repr

/-- The `'similarity'` key of a result dict. -/
def SearchHit.similarity : SearchHit → ℚ
  | .earnings _ s => s
  | .news s => s

/-- Descending-similarity comparison used by
`results.sort(key=lambda x: x['similarity'], reverse=True)`. -/
def simGE (a b : SearchHit) : Prop :=
  b.similarity ≤ a.similarity

instance : DecidableRel simGE := fun a b =>
  inferInstanceAs (Decidable (b.similarity ≤ a.similarity))

instance : IsTotal SearchHit simGE :=
  ⟨fun a b => le_total b.similarity a.similarity⟩

instance : IsTrans SearchHit simGE :=
  ⟨fun _ _ _ h1 h2 => le_trans h2 h1⟩

/-- SQL `LIKE 'summary_%'` on `chunk_type` (line 235): `_` matches exactly
one character, `%` any suffix. -/
def likeSummary (s : List Char) : Bool :=
  s.take 7 = "summary".toList && decide (8 ≤ s.length)

/-- The earnings-call partition query (lines 217-241): optional symbol
filter, `search_type` filter, similarity threshold, rank by similarity
descending, truncate to `limit`. -/
def docPartitionQuery (docRows : List ScoredDocRow)
    (company_symbol : Option (List Char)) (search_type : List Char)
    (limit : Nat) (similarity_threshold : ℚ) : List ScoredDocRow :=
  let q1 : List ScoredDocRow := match company_symbol with
    | some sym => docRows.filter (fun r => r.company_symbol = sym)
    | none => docRows
  let q2 :=
    if search_type = "transcript".toList then
      q1.filter (fun r => r.chunk_type = "transcript".toList)
    else if search_type = "summary".toList then
      q1.filter (fun r => likeSummary r.chunk_type)
    else q1
  ((q2.filter (fun r => similarity_threshold ≤ r.similarity)).insertionSort
    (fun a b => b.similarity ≤ a.similarity)).take limit

/-- The news partition query (lines 258-275). -/
def newsPartitionQuery (newsRows : List ScoredNewsRow)
    (company_symbol : Option (List Char)) (limit : Nat)
    (similarity_threshold : ℚ) : List ScoredNewsRow :=
  let q1 : List ScoredNewsRow := match company_symbol with
    | some sym => newsRows.filter (fun r => r.symbol = sym)
    | none => newsRows
  ((q1.filter (fun r => similarity_threshold ≤ r.similarity)).insertionSort
    (fun a b => b.similarity ≤ a.similarity)).take limit

/-- `PostgresRAGService.semantic_search` (src/rag_service.py lines
185-301): run the partitions selected by `search_type`, concatenate, sort
the concatenation by similarity descending, truncate to `limit`.  `emb`
models embedder availability (unavailable → `[]`, line 204-206). -/
def semantic_search (emb : Bool) (docRows : List ScoredDocRow)
    (newsRows : List ScoredNewsRow) (company_symbol : Option (List Char))
    (search_type : List Char) (limit : Nat) (similarity_threshold : ℚ) :
    List SearchHit :=
  if !emb then []
  else
    let docPart :=
      if search_type = "all".toList || search_type = "transcript".toList
          || search_type = "summary".toList then
        (docPartitionQuery docRows company_symbol search_type limit
          similarity_threshold).map
          (fun r => SearchHit.earnings r.chunk_type r.similarity)
      else []
    let newsPart :=
      if search_type = "all".toList || search_type = "news".toList then
        (newsPartitionQuery newsRows company_symbol limit
          similarity_threshold).map (fun r => SearchHit.news r.similarity)
      else []
    ((docPart ++ newsPart).insertionSort simGE).take limit

end EarningsSummarizer

namespace EarningsSummarizer

/-! ## Lemmas: whitespace splitting and joining -/

theorem pySplitAux_nonspace_block {w : List Char}
    (hw : ∀ c ∈ w, isPySpace c = false) :
    ∀ (l acc : List Char),
      pySplitAux (w ++ l) acc = pySplitAux l (w.reverse ++ acc) := by
  induction w with
  | nil => intro l acc; simp
  | cons c w ih =>
    intro l acc
    have hc : isPySpace c = false := hw c (by simp)
    have hw2 : ∀ d ∈ w, isPySpace d = false := fun d hd => hw d (by simp [hd])
    show pySplitAux (c :: (w ++ l)) acc = _
    rw [pySplitAux, if_neg (by simp [hc]), ih hw2 l (c :: acc)]
    simp [List.reverse_cons, List.append_assoc]

theorem pySplit_space_cons {c : Char} (hc : isPySpace c = true)
    (l : List Char) : pySplit (c :: l) = pySplit l := by
  simp [pySplit, pySplitAux, hc]

/-- Splitting inverts joining on well-formed word lists: `' '.join` followed
by `split()` restores the words, provided every word is non-empty and
whitespace-free. -/
theorem pySplit_joinWords : ∀ (ws : List (List Char)),
    (∀ w ∈ ws, w ≠ [] ∧ ∀ c ∈ w, isPySpace c = false) →
    pySplit (joinWords ws) = ws := by
  intro ws
  induction ws with
  | nil => intro _; rfl
  | cons w ws ih =>
    intro h
    obtain ⟨hne, hns⟩ := h w (by simp)
    cases ws with
    | nil =>
      show pySplitAux (joinWords [w]) [] = [w]
      have hblock := pySplitAux_nonspace_block hns [] []
      simp only [List.append_nil] at hblock
      rw [show joinWords [w] = w from rfl, hblock, pySplitAux]
      simp [hne]
    | cons w2 ws2 =>
      show pySplitAux (joinWords (w :: w2 :: ws2)) [] = w :: w2 :: ws2
      rw [show joinWords (w :: w2 :: ws2) = w ++ ' ' :: joinWords (w2 :: ws2)
        from rfl]
      rw [pySplitAux_nonspace_block hns]
      have hrev : w.reverse ≠ [] := by simpa using hne
      rw [List.append_nil, pySplitAux, if_pos (show isPySpace ' ' = true from rfl),
        if_neg hrev, List.reverse_reverse]
      have := ih (fun u hu => h u (by simp [hu]))
      rw [show pySplitAux (joinWords (w2 :: ws2)) [] =
        pySplit (joinWords (w2 :: ws2)) from rfl, this]

/-- Every word produced by `pySplit` is non-empty and whitespace-free. -/
theorem pySplitAux_wellFormed : ∀ (l acc : List Char),
    (∀ c ∈ acc, isPySpace c = false) →
    ∀ w ∈ pySplitAux l acc, w ≠ [] ∧ ∀ c ∈ w, isPySpace c = false := by
  intro l
  induction l with
  | nil =>
    intro acc hacc w hw
    by_cases h : acc = []
    · simp [pySplitAux, h] at hw
    · simp only [pySplitAux, h, if_false, List.mem_singleton] at hw
      subst hw
      refine ⟨by simpa using h, fun c hc => hacc c (List.mem_reverse.mp hc)⟩
  | cons c cs ih =>
    intro acc hacc w hw
    by_cases hsp : isPySpace c
    · by_cases h : acc = []
      · simp only [pySplitAux, hsp, if_true, h, if_pos rfl] at hw
        exact ih [] (by simp) w hw
      · simp only [pySplitAux, hsp, if_true, h, if_false, List.mem_cons] at hw
        rcases hw with hw | hw
        · subst hw
          refine ⟨by simpa using h, fun d hd => hacc d (List.mem_reverse.mp hd)⟩
        · exact ih [] (by simp) w hw
    · simp only [pySplitAux, hsp, if_false] at hw
      refine ih (c :: acc) ?_ w hw
      intro d hd
      rcases List.mem_cons.mp hd with rfl | hd
      · simpa using hsp
      · exact hacc d hd

theorem pySplit_wellFormed (l : List Char) :
    ∀ w ∈ pySplit l, w ≠ [] ∧ ∀ c ∈ w, isPySpace c = false :=
  pySplitAux_wellFormed l [] (by simp)

theorem pySplit_nil : pySplit [] = [] := rfl

/-! ## Lemmas: the chunk loop -/

theorem chunkLoopF_mem {α : Type} (M S : Nat) :
    ∀ (fuel : Nat) (rest ch : List α), ch ∈ chunkLoopF M S fuel rest →
      ch.length ≤ M ∧ ∀ x ∈ ch, x ∈ rest := by
  intro fuel
  induction fuel with
  | zero =>
    intro rest ch h
    cases rest <;> simp [chunkLoopF] at h
  | succ fuel ih =>
    intro rest ch h
    cases rest with
    | nil => simp [chunkLoopF] at h
    | cons x xs =>
      rw [chunkLoopF] at h
      by_cases hlen : (x :: xs).length ≤ M
      · simp only [if_pos hlen, List.mem_singleton] at h
        subst h
        exact ⟨List.length_take_le M _, fun y hy => List.take_subset M _ hy⟩
      · simp only [if_neg hlen, List.mem_cons] at h
        rcases h with h | h
        · subst h
          exact ⟨List.length_take_le M _, fun y hy => List.take_subset M _ hy⟩
        · obtain ⟨h1, h2⟩ := ih _ _ h
          exact ⟨h1, fun y hy => List.drop_subset S _ (h2 y hy)⟩

/-- Dropping the first `O` tokens of every chunk produced from the suffix
`rest` and concatenating yields `rest.drop O`. -/
theorem chunkLoopF_flatten_drop {α : Type} (M O : Nat) (hO : O < M) :
    ∀ (fuel : Nat) (rest : List α), rest.length ≤ fuel →
      ((chunkLoopF M (M - O) fuel rest).map (List.drop O)).flatten =
        rest.drop O := by
  intro fuel
  induction fuel with
  | zero =>
    intro rest h
    have : rest = [] := List.eq_nil_of_length_eq_zero (Nat.le_zero.mp h)
    subst this
    simp [chunkLoopF]
  | succ fuel ih =>
    intro rest hlen
    cases rest with
    | nil => simp [chunkLoopF]
    | cons x xs =>
      rw [chunkLoopF]
      by_cases hM : (x :: xs).length ≤ M
      · simp only [if_pos hM, List.map_cons, List.map_nil, List.flatten_cons,
          List.flatten_nil, List.append_nil]
        rw [List.drop_take]
        exact List.take_of_length_le (by
          rw [List.length_drop]
          omega)
      · simp only [if_neg hM, List.map_cons, List.flatten_cons]
        rw [ih ((x :: xs).drop (M - O)) (by
          rw [List.length_drop]
          omega)]
        rw [List.drop_take, List.drop_drop]
        rw [show M - O + O = M from by omega]
        rw [show List.drop M (x :: xs) = List.drop (M - O) (List.drop O (x :: xs))
          from by rw [List.drop_drop]; congr 1; omega]
        exact List.take_append_drop _ _

/-- Keeping the first chunk whole, dropping the first `O` tokens of every
later chunk and concatenating reconstructs the token sequence. -/
theorem chunkLoopF_reassemble {α : Type} (M O : Nat) (hO : O < M) :
    ∀ (fuel : Nat) (words : List α), words.length ≤ fuel →
      reassemble O (chunkLoopF M (M - O) fuel words) = words := by
  intro fuel words hlen
  cases words with
  | nil =>
    cases fuel <;> simp [chunkLoopF, reassemble]
  | cons x xs =>
    cases fuel with
    | zero => simp at hlen
    | succ fuel =>
      rw [chunkLoopF]
      by_cases hM : (x :: xs).length ≤ M
      · simp only [if_pos hM, reassemble, List.map_nil, List.flatten_nil,
          List.append_nil]
        exact List.take_of_length_le hM
      · simp only [if_neg hM, reassemble]
        rw [chunkLoopF_flatten_drop M O hO fuel _ (by
          rw [List.length_drop]
          omega)]
        rw [List.drop_drop]
        rw [show M - O + O = M from by omega]
        exact List.take_append_drop _ _

theorem chunkLoopF_whole {α : Type} (M S : Nat) (x : α) (xs : List α)
    (h : (x :: xs).length ≤ M) :
    chunkLoopF M S (x :: xs).length (x :: xs) = [x :: xs] := by
  rw [show (x :: xs).length = xs.length + 1 from rfl, chunkLoopF, if_pos h,
    List.take_of_length_le h]

/-- C1: for every text whose whitespace-split token sequence is non-empty
and every `0 ≤ O < M`, token-mode chunking succeeds, keeping the first
chunk whole and dropping the first `O` tokens of every later chunk
reconstructs the token sequence in order, and every chunk has at most `M`
tokens. -/
theorem claim_C1_chunk_reconstruction (text : List Char) (M O : Nat)
    (htok : pySplit text ≠ []) (hO : O < M) :
    ∃ chunks, chunk_text text M O = Except.ok chunks ∧
      reassemble O (chunks.map pySplit) = pySplit text ∧
      ∀ c ∈ chunks, (pySplit c).length ≤ M := by
  have htext : text ≠ [] := fun h => htok (by rw [h, pySplit_nil])
  have hMO : ¬(M = O) := by omega
  have hML : ¬(M < O) := by omega
  refine ⟨(chunkLoopF M (M - O) (pySplit text).length (pySplit text)).map
    joinWords, ?_, ?_, ?_⟩
  · simp only [chunk_text, if_neg htext, if_neg hMO, if_neg hML]
  · have hwf := pySplit_wellFormed text
    have hroundtrip : ∀ ch ∈ chunkLoopF M (M - O) (pySplit text).length
        (pySplit text), pySplit (joinWords ch) = ch := by
      intro ch hch
      obtain ⟨_, hmem⟩ := chunkLoopF_mem M (M - O) _ _ ch hch
      exact pySplit_joinWords ch (fun w hw => hwf w (hmem w hw))
    rw [List.map_map]
    rw [List.map_congr_left (fun ch hch => by
      simpa using hroundtrip ch hch)]
    rw [show List.map (fun ch => ch) = List.map (@id (List (List Char)))
      from rfl, List.map_id]
    exact chunkLoopF_reassemble M O hO _ _ le_rfl
  · intro c hc
    obtain ⟨ch, hch, rfl⟩ := List.mem_map.mp hc
    obtain ⟨hlen, hmem⟩ := chunkLoopF_mem M (M - O) _ _ ch hch
    have hwf := pySplit_wellFormed text
    rw [pySplit_joinWords ch (fun w hw => hwf w (hmem w hw))]
    exact hlen

theorem claim_C1_chunk_reconstruction_witness :
    (pySplit "a b c".toList ≠ [] ∧ 1 < 2) ∧
    ∃ chunks, chunk_text "a b c".toList 2 1 = Except.ok chunks ∧
      reassemble 1 (chunks.map pySplit) = pySplit "a b c".toList ∧
      ∀ c ∈ chunks, (pySplit c).length ≤ 2 :=
  ⟨⟨by decide, by decide⟩,
   claim_C1_chunk_reconstruction "a b c".toList 2 1 (by decide) (by decide)⟩

/-- C7 as stated is false: a text whose tokens are not single-space
separated (here two spaces) has at most `max_size` tokens, yet the single
produced chunk is the space-normalized join, not the whole input text. -/
theorem claim_C7_counterexample :
    chunk_text "a  b".toList 1000 100 = Except.ok ["a b".toList] ∧
    decide ("a b".toList = "a  b".toList) = false :=
  ⟨rfl, by decide⟩

/-- C7 amended: chunking empty text yields the empty sequence; a non-empty
whitespace-only text also yields the empty sequence; and (for valid
`overlap < max_size`) a text with at least one and at most `max_size`
tokens yields exactly one chunk equal to the single-space join of its
tokens (which equals the whole input exactly when the input is already
single-space separated). -/
theorem claim_C7_empty_and_short_input (text : List Char) (M O : Nat) :
    chunk_text [] M O = Except.ok [] ∧
    (text ≠ [] → pySplit text = [] → O < M → chunk_text text M O = Except.ok []) ∧
    (pySplit text ≠ [] → (pySplit text).length ≤ M → O < M →
      chunk_text text M O = Except.ok [joinWords (pySplit text)]) := by
  refine ⟨by rw [chunk_text, if_pos rfl], ?_, ?_⟩
  · intro htext htok hO
    simp only [chunk_text, if_neg htext, if_neg (by omega : ¬(M = O)),
      if_neg (by omega : ¬(M < O)), htok]
    rfl
  · intro htok hlen hO
    have htext : text ≠ [] := fun h => htok (by rw [h, pySplit_nil])
    simp only [chunk_text, if_neg htext, if_neg (by omega : ¬(M = O)),
      if_neg (by omega : ¬(M < O))]
    cases hw : pySplit text with
    | nil => exact absurd hw htok
    | cons x xs =>
      rw [hw] at hlen
      rw [chunkLoopF_whole M (M - O) x xs hlen]
      rfl

theorem claim_C7_empty_and_short_input_witness :
    chunk_text "x  y".toList 5 1 = Except.ok ["x y".toList] ∧
    chunk_text "  ".toList 5 1 = Except.ok [] :=
  ⟨by
    have h := (claim_C7_empty_and_short_input "x  y".toList 5 1).2.2
      (by decide) (by decide) (by decide)
    exact h,
   (claim_C7_empty_and_short_input "  ".toList 5 1).2.1
    (by decide) (by decide) (by decide)⟩

/-- C8 is violated by the code: with `overlap > max_size` the Python
`range` step is negative, the loop body never runs, and `chunk_text`
silently returns `[]` for non-empty input — it neither clamps the overlap
to `max_size - 1` (which would produce `["a b"]`) nor rejects the call;
with `overlap == max_size` it raises an unguarded `ValueError` from
`range` (the `Except.error` case). -/
theorem claim_C8_overlap_ge_max_behaviour :
    chunk_text "a b".toList 2 3 = Except.ok [] ∧
    chunk_text "a b".toList 2 2 = Except.error () ∧
    chunk_text "a b".toList 2 1 = Except.ok ["a b".toList] ∧
    ("a b".toList).length = 3 :=
  ⟨rfl, rfl, rfl, rfl⟩

/-! ## Sentiment claims -/

theorem parseLLMSentiment_mem {raw w : List Char}
    (h : parseLLMSentiment raw = some w) : w ∈ validSentiments := by
  unfold parseLLMSentiment at h
  by_cases h1 : pyStrip raw = []
  · simp [h1] at h
  · simp only [h1, if_false] at h
    by_cases h2 : pyTitle (stripPunct ((pySplit (pyStrip raw)).headD [])) ∈
        validSentiments
    · rw [if_pos h2] at h
      cases h
      exact h2
    · rw [if_neg h2] at h
      cases h

theorem keywordFallback_closed (p n u : Nat) :
    keywordFallback p n u ∈ ["Positive", "Negative", "Neutral"].map
      String.toList := by
  unfold keywordFallback
  split_ifs <;> decide

/-- C5: when the LLM response is unavailable or not a valid sentiment word,
classification falls back to the keyword counts over the lower-cased text,
returning the label of the strictly highest count and `"Neutral"` otherwise;
on a transcript with 5 positive, 1 negative and 2 neutral keyword hits it
returns `"Positive"`. -/
theorem claim_C5_sentiment_fallback (llmRaw transcriptRaw : List Char)
    (hinvalid : parseLLMSentiment llmRaw = none) :
    (determine_outlook_sentiment llmRaw transcriptRaw =
      if positiveCount transcriptRaw > negativeCount transcriptRaw ∧
          positiveCount transcriptRaw > neutralCount transcriptRaw then
        "Positive".toList
      else if negativeCount transcriptRaw > positiveCount transcriptRaw ∧
          negativeCount transcriptRaw > neutralCount transcriptRaw then
        "Negative".toList
      else "Neutral".toList) ∧
    positiveCount
      "optimistic confident strong growth momentum headwinds stable steady".toList
      = 5 ∧
    negativeCount
      "optimistic confident strong growth momentum headwinds stable steady".toList
      = 1 ∧
    neutralCount
      "optimistic confident strong growth momentum headwinds stable steady".toList
      = 2 ∧
    determine_outlook_sentiment llmRaw
      "optimistic confident strong growth momentum headwinds stable steady".toList
      = "Positive".toList := by
  refine ⟨?_, by decide, by decide, by decide, ?_⟩
  · simp only [determine_outlook_sentiment, hinvalid]
    rfl
  · simp only [determine_outlook_sentiment, hinvalid]
    decide

theorem claim_C5_sentiment_fallback_witness :
    parseLLMSentiment [] = none ∧
    determine_outlook_sentiment []
      "optimistic confident strong growth momentum headwinds stable steady".toList
      = "Positive".toList :=
  ⟨rfl, (claim_C5_sentiment_fallback [] [] rfl).2.2.2.2⟩

/-- C10: for every LLM behaviour and transcript, the sentiment operation
returns a word of the fixed 12-word vocabulary; every word of that
vocabulary is non-empty and whitespace-free; the accepted set strictly
extends the six prompt options; and the keyword fallback can only produce
`"Positive"`, `"Negative"` or `"Neutral"`. -/
theorem claim_C10_sentiment_vocabulary :
    (∀ llmRaw transcriptRaw : List Char,
      determine_outlook_sentiment llmRaw transcriptRaw ∈ validSentiments) ∧
    (∀ p n u : Nat, keywordFallback p n u ∈
      ["Positive", "Negative", "Neutral"].map String.toList) ∧
    validSentiments.length = 12 ∧
    promptSentimentOptions.all (fun w => validSentiments.contains w) = true ∧
    "Optimistic".toList ∈ validSentiments ∧
    promptSentimentOptions.contains "Optimistic".toList = false ∧
    validSentiments.all
      (fun w => !(w.isEmpty) && w.all (fun c => !(isPySpace c))) = true := by
  refine ⟨?_, keywordFallback_closed, by decide, by decide, by decide,
    by decide, by decide⟩
  intro llmRaw transcriptRaw
  unfold determine_outlook_sentiment
  cases h : parseLLMSentiment llmRaw with
  | some w => exact parseLLMSentiment_mem h
  | none =>
    show keywordFallback _ _ _ ∈ validSentiments
    unfold keywordFallback
    split_ifs <;> decide

/-! ## Retrieval claims -/

theorem docPartitionQuery_threshold {docRows : List ScoredDocRow}
    {company : Option (List Char)} {search_type : List Char} {limit : Nat}
    {threshold : ℚ} {r : ScoredDocRow}
    (h : r ∈ docPartitionQuery docRows company search_type limit threshold) :
    threshold ≤ r.similarity := by
  simp only [docPartitionQuery] at h
  have h1 := (List.perm_insertionSort _ _).mem_iff.mp (List.mem_of_mem_take h)
  exact of_decide_eq_true (List.mem_filter.mp h1).2

theorem newsPartitionQuery_threshold {newsRows : List ScoredNewsRow}
    {company : Option (List Char)} {limit : Nat} {threshold : ℚ}
    {r : ScoredNewsRow}
    (h : r ∈ newsPartitionQuery newsRows company limit threshold) :
    threshold ≤ r.similarity := by
  simp only [newsPartitionQuery] at h
  have h1 := (List.perm_insertionSort _ _).mem_iff.mp (List.mem_of_mem_take h)
  exact of_decide_eq_true (List.mem_filter.mp h1).2

/-- C3: `semantic_search` concatenates independently truncated
per-partition queries, sorts the concatenation by similarity descending and
truncates to `limit`; consequently its result is sorted by similarity
descending and has at most `limit` elements. -/
theorem claim_C3_search_sorted_and_bounded (emb : Bool)
    (docRows : List ScoredDocRow) (newsRows : List ScoredNewsRow)
    (company : Option (List Char)) (search_type : List Char) (limit : Nat)
    (threshold : ℚ) :
    List.Sorted simGE
      (semantic_search emb docRows newsRows company search_type limit
        threshold) ∧
    (semantic_search emb docRows newsRows company search_type limit
      threshold).length ≤ limit := by
  cases emb with
  | false => exact ⟨List.sorted_nil, by simp [semantic_search]⟩
  | true =>
    constructor
    · exact List.Pairwise.sublist (List.take_sublist _ _)
        (List.sorted_insertionSort simGE _)
    · exact List.length_take_le _ _

/-- C4: no element of a `semantic_search` result has similarity strictly
below the requested threshold: each per-partition query filters to
`similarity >= threshold` and the final merge only reorders and truncates. -/
theorem claim_C4_search_threshold (emb : Bool) (docRows : List ScoredDocRow)
    (newsRows : List ScoredNewsRow) (company : Option (List Char))
    (search_type : List Char) (limit : Nat) (threshold : ℚ) (hit : SearchHit)
    (hmem : hit ∈ semantic_search emb docRows newsRows company search_type
      limit threshold) :
    threshold ≤ hit.similarity := by
  cases emb with
  | false => simp [semantic_search] at hmem
  | true =>
    have h1 := (List.perm_insertionSort simGE _).mem_iff.mp
      (List.mem_of_mem_take hmem)
    rcases List.mem_append.mp h1 with h2 | h2
    · by_cases hc : (search_type = "all".toList
          || search_type = "transcript".toList
          || search_type = "summary".toList) = true
      · rw [if_pos hc] at h2
        obtain ⟨r, hr, rfl⟩ := List.mem_map.mp h2
        exact docPartitionQuery_threshold hr
      · rw [if_neg hc] at h2
        simp at h2
    · by_cases hc : (search_type = "all".toList
          || search_type = "news".toList) = true
      · rw [if_pos hc] at h2
        obtain ⟨r, hr, rfl⟩ := List.mem_map.mp h2
        exact newsPartitionQuery_threshold hr
      · rw [if_neg hc] at h2
        simp at h2

theorem claim_C4_search_threshold_witness :
    (SearchHit.earnings "transcript".toList 1 ∈
      semantic_search true [ScoredDocRow.mk "transcript".toList "AAPL".toList
        1] [] none "all".toList 5 0) ∧
    (0 : ℚ) ≤ (SearchHit.earnings "transcript".toList 1).similarity :=
  ⟨by decide,
   claim_C4_search_threshold true
    [ScoredDocRow.mk "transcript".toList "AAPL".toList 1] [] none
    "all".toList 5 0 (SearchHit.earnings "transcript".toList 1)
    (by decide)⟩

/-! ## Write-path claims -/

theorem newEarningsChunks_ecid (id : Nat) (call : EarningsCallRow)
    (summaries : List SummaryRow) (ct cs : Bool) :
    ∀ r ∈ newEarningsChunks id call summaries ct cs,
      r.earnings_call_id = id := by
  intro r hr
  unfold newEarningsChunks at hr
  rcases List.mem_append.mp hr with h | h
  · split at h
    · obtain ⟨p, _, rfl⟩ := List.mem_map.mp h
      rfl
    · simp at h
  · split at h
    · obtain ⟨g, hg, hrg⟩ := List.mem_flatten.mp h
      obtain ⟨s, _, rfl⟩ := List.mem_map.mp hg
      split at hrg
      · simp at hrg
      · obtain ⟨p, _, rfl⟩ := List.mem_map.mp hrg
        rfl
    · simp at h

/-- Re-running the replacement on the resulting state filters out exactly
the rows the first run inserted, leaving the once-filtered old rows. -/
theorem chunks_filter_stable (db : DBState) (id : Nat)
    (call : EarningsCallRow) (summaries : List SummaryRow) (ct cs : Bool) :
    (db.chunks.filter (fun c => !(c.earnings_call_id = id)) ++
        newEarningsChunks id call summaries ct cs).filter
      (fun c => !(c.earnings_call_id = id)) =
    db.chunks.filter (fun c => !(c.earnings_call_id = id)) := by
  rw [List.filter_append]
  have h1 : (db.chunks.filter (fun c => !(c.earnings_call_id = id))).filter
      (fun c => !(c.earnings_call_id = id)) =
      db.chunks.filter (fun c => !(c.earnings_call_id = id)) := by
    rw [List.filter_filter]
    exact List.filter_congr (fun c _ => by rw [Bool.and_self])
  have h2 : (newEarningsChunks id call summaries ct cs).filter
      (fun c => !(c.earnings_call_id = id)) = [] := by
    rw [List.filter_eq_nil_iff]
    intro r hr
    rw [newEarningsChunks_ecid id call summaries ct cs r hr]
    simp
  rw [h1, h2, List.append_nil]

/-- C2: running `add_earnings_embeddings` twice in succession returns the
same chunk count both times and even reproduces the exact same state,
because each run deletes all existing chunks of the document before
inserting the freshly computed set. -/
theorem claim_C2_reembedding_idempotent (emb : Bool) (db : DBState)
    (id : Nat) (ct cs : Bool) :
    add_earnings_embeddings emb (add_earnings_embeddings emb db id ct cs).2
      id ct cs = add_earnings_embeddings emb db id ct cs := by
  cases emb with
  | false => rfl
  | true =>
    cases hfind : db.calls.find? (fun c => c.id = id) with
    | none =>
      have h1 : add_earnings_embeddings true db id ct cs = (0, db) := by
        simp only [add_earnings_embeddings, Bool.not_true, Bool.false_eq_true,
          if_false, hfind]
      rw [h1, h1]
    | some call =>
      have h1 : add_earnings_embeddings true db id ct cs =
          ((newEarningsChunks id call db.summaries ct cs).length,
           { db with chunks :=
              db.chunks.filter (fun c => !(c.earnings_call_id = id)) ++
                newEarningsChunks id call db.summaries ct cs }) := by
        simp only [add_earnings_embeddings, Bool.not_true, Bool.false_eq_true,
          if_false, hfind]
      rw [h1]
      simp only [add_earnings_embeddings, Bool.not_true, Bool.false_eq_true,
        if_false, hfind, chunks_filter_stable]

/-- C6 as stated is false for `add_earnings_embeddings`: on a document
whose text is empty, the method still deletes the previously stored chunks
of the document (the delete at line 69 runs before any emptiness check), so
the store is not left untouched. -/
theorem claim_C6_counterexample :
    (add_earnings_embeddings true dbEmptyTranscript 1 true true).1 = 0 ∧
    (add_earnings_embeddings true dbEmptyTranscript 1 true true).2.chunks
      = [] ∧
    dbEmptyTranscript.chunks.length = 1 :=
  ⟨rfl, rfl, rfl⟩

/-- C6 amended: for a document with empty/null text (and, for the earnings
path, no stored summaries with non-empty content) `add_embeddings` returns
0, inserts no chunk rows and raises nothing; the news path leaves the store
completely untouched, while the earnings path still deletes every
previously stored chunk of the document. -/
theorem claim_C6_empty_text_behaviour (emb : Bool) (db : DBState)
    (id nid : Nat) (call : EarningsCallRow) (article : NewsRow)
    (hfind : db.calls.find? (fun c => c.id = id) = some call)
    (htr : call.raw_transcript = [])
    (hsum : ∀ s ∈ db.summaries, s.earnings_call_id = id → s.content = [])
    (hnf : db.news.find? (fun n => n.id = nid) = some article)
    (hnc : article.content = []) :
    (add_earnings_embeddings emb db id true true).1 = 0 ∧
    (add_earnings_embeddings emb db id true true).2.chunks =
      (if emb then db.chunks.filter (fun c => !(c.earnings_call_id = id))
       else db.chunks) ∧
    add_news_embeddings emb db nid = (0, db) := by
  cases emb with
  | false => exact ⟨rfl, rfl, rfl⟩
  | true =>
    have hrecs : newEarningsChunks id call db.summaries true true = [] := by
      unfold newEarningsChunks
      rw [htr]
      simp only [decide_True, Bool.not_true, Bool.and_false,
        Bool.false_eq_true, if_false, if_true, List.nil_append]
      rw [List.flatten_eq_nil_iff]
      intro g hg
      obtain ⟨s, hs, rfl⟩ := List.mem_map.mp (by
        simpa only [summaryGroups] using hg)
      have hsid : s.earnings_call_id = id :=
        of_decide_eq_true (List.mem_filter.mp hs).2
      rw [if_pos (hsum s (List.mem_filter.mp hs).1 hsid)]
    have h1 : add_earnings_embeddings true db id true true =
        (0, { db with chunks :=
          db.chunks.filter (fun c => !(c.earnings_call_id = id)) }) := by
      simp only [add_earnings_embeddings, Bool.not_true, Bool.false_eq_true,
        if_false, hfind, hrecs, List.length_nil, List.append_nil]
    refine ⟨by rw [h1], by simp [h1], ?_⟩
    simp [add_news_embeddings, hnf, hnc]

theorem claim_C6_empty_text_behaviour_witness :
    (add_earnings_embeddings true
      (DBState.mk [⟨1, []⟩] [⟨7, 1, "executive".toList, []⟩]
        [⟨1, "old".toList, 0, "transcript".toList⟩] [⟨4, []⟩] []) 1 true
      true).1 = 0 ∧
    (add_earnings_embeddings true
      (DBState.mk [⟨1, []⟩] [⟨7, 1, "executive".toList, []⟩]
        [⟨1, "old".toList, 0, "transcript".toList⟩] [⟨4, []⟩] []) 1 true
      true).2.chunks =
      (if true then
        (DBState.mk [⟨1, []⟩] [⟨7, 1, "executive".toList, []⟩]
          [⟨1, "old".toList, 0, "transcript".toList⟩] [⟨4, []⟩]
          []).chunks.filter (fun c => !(c.earnings_call_id = 1))
       else (DBState.mk [⟨1, []⟩] [⟨7, 1, "executive".toList, []⟩]
        [⟨1, "old".toList, 0, "transcript".toList⟩] [⟨4, []⟩] []).chunks) ∧
    add_news_embeddings true
      (DBState.mk [⟨1, []⟩] [⟨7, 1, "executive".toList, []⟩]
        [⟨1, "old".toList, 0, "transcript".toList⟩] [⟨4, []⟩] []) 4 =
      (0, DBState.mk [⟨1, []⟩] [⟨7, 1, "executive".toList, []⟩]
        [⟨1, "old".toList, 0, "transcript".toList⟩] [⟨4, []⟩] []) :=
  claim_C6_empty_text_behaviour true
    (DBState.mk [⟨1, []⟩] [⟨7, 1, "executive".toList, []⟩]
      [⟨1, "old".toList, 0, "transcript".toList⟩] [⟨4, []⟩] []) 1 4
    ⟨1, []⟩ ⟨4, []⟩ rfl rfl (by decide) rfl rfl

/-! ## Chunk-index claims (C9) -/

theorem enumFrom_shift {α : Type} :
    ∀ (l : List α) (i k : Nat),
      (l.enumFrom k).map (fun p => (i + p.1, p.2)) = l.enumFrom (i + k) := by
  intro l
  induction l with
  | nil => intro i k; rfl
  | cons x xs ih =>
    intro i k
    rw [List.enumFrom_cons, List.enumFrom_cons, List.map_cons, ih i (k + 1)]
    rw [show i + (k + 1) = i + k + 1 from by omega]

theorem enumFrom_take_drop {α : Type} :
    ∀ (l : List α) (i b : Nat),
      List.enumFrom i (l.take b) ++ List.enumFrom (i + b) (l.drop b) =
        List.enumFrom i l := by
  intro l
  induction l with
  | nil => intro i b; simp
  | cons x xs ih =>
    intro i b
    cases b with
    | zero => simp
    | succ b =>
      rw [List.take_succ_cons, List.drop_succ_cons, List.enumFrom_cons,
        List.enumFrom_cons, List.cons_append]
      rw [show i + (b + 1) = i + 1 + b from by omega, ih (i + 1) b]

theorem batchIdxF_eq_enumFrom {α : Type} (b : Nat) (hb : 0 < b) :
    ∀ (fuel i : Nat) (l : List α), l.length ≤ fuel →
      batchIdxF b fuel i l = l.enumFrom i := by
  intro fuel
  induction fuel with
  | zero =>
    intro i l h
    have : l = [] := List.eq_nil_of_length_eq_zero (Nat.le_zero.mp h)
    subst this
    rfl
  | succ fuel ih =>
    intro i l h
    cases l with
    | nil => rfl
    | cons x xs =>
      rw [batchIdxF]
      rw [ih (i + b) ((x :: xs).drop b) (by
        rw [List.length_drop]
        simp only [List.length_cons] at h ⊢
        omega)]
      rw [show (List.enum ((x :: xs).take b)).map (fun p => (i + p.1, p.2)) =
          List.enumFrom i ((x :: xs).take b) from by
        rw [show List.enum ((x :: xs).take b) =
          List.enumFrom 0 ((x :: xs).take b) from rfl]
        rw [enumFrom_shift _ i 0, Nat.add_zero]]
      exact enumFrom_take_drop (x :: xs) i b

theorem transcriptRows_pairs (id : Nat) (tC : List (List Char)) :
    (transcriptRows id tC).map (fun c => (c.chunk_type, c.chunk_index)) =
      (List.range tC.length).map (fun k => ("transcript".toList, k)) := by
  unfold transcriptRows
  rw [batchIdxF_eq_enumFrom 10 (by omega) tC.length 0 tC le_rfl, List.map_map]
  rw [show ((fun c : ChunkRow => (c.chunk_type, c.chunk_index)) ∘
      (fun p : Nat × List Char =>
        ChunkRow.mk id p.2 p.1 "transcript".toList)) =
      ((fun k => ("transcript".toList, k)) ∘ Prod.fst) from rfl]
  rw [← List.map_map, List.enumFrom_map_fst, ← List.range_eq_range']

theorem transcriptRows_indices (id : Nat) (tC : List (List Char)) :
    (transcriptRows id tC).map (fun c => c.chunk_index) =
      List.range tC.length := by
  unfold transcriptRows
  rw [batchIdxF_eq_enumFrom 10 (by omega) tC.length 0 tC le_rfl, List.map_map]
  rw [show ((fun c : ChunkRow => c.chunk_index) ∘
      (fun p : Nat × List Char =>
        ChunkRow.mk id p.2 p.1 "transcript".toList)) = Prod.fst from rfl]
  rw [List.enumFrom_map_fst, ← List.range_eq_range']

theorem transcriptRows_type (id : Nat) (tC : List (List Char)) :
    ∀ r ∈ transcriptRows id tC, r.chunk_type = "transcript".toList := by
  intro r hr
  obtain ⟨p, _, rfl⟩ := List.mem_map.mp hr
  rfl

theorem summaryRowsFor_pairs (id : Nat) (st : List Char)
    (sC : List (List Char)) :
    (summaryRowsFor id st sC).map (fun c => (c.chunk_type, c.chunk_index)) =
      (List.range sC.length).map (fun k => ("summary_".toList ++ st, k)) := by
  unfold summaryRowsFor
  rw [List.map_map]
  rw [show ((fun c : ChunkRow => (c.chunk_type, c.chunk_index)) ∘
      (fun p : Nat × List Char =>
        ChunkRow.mk id p.2 p.1 ("summary_".toList ++ st))) =
      ((fun k => ("summary_".toList ++ st, k)) ∘ Prod.fst) from rfl]
  rw [← List.map_map, List.enum_map_fst]

theorem summaryRowsFor_indices (id : Nat) (st : List Char)
    (sC : List (List Char)) :
    (summaryRowsFor id st sC).map (fun c => c.chunk_index) =
      List.range sC.length := by
  unfold summaryRowsFor
  rw [List.map_map]
  rw [show ((fun c : ChunkRow => c.chunk_index) ∘
      (fun p : Nat × List Char =>
        ChunkRow.mk id p.2 p.1 ("summary_".toList ++ st))) = Prod.fst from rfl]
  rw [List.enum_map_fst]

theorem summaryRowsFor_type (id : Nat) (st : List Char)
    (sC : List (List Char)) :
    ∀ r ∈ summaryRowsFor id st sC,
      r.chunk_type = "summary_".toList ++ st := by
  intro r hr
  obtain ⟨p, _, rfl⟩ := List.mem_map.mp hr
  rfl

theorem summaryTag_ne_transcript (st : List Char) :
    ¬("summary_".toList ++ st = "transcript".toList) := by
  intro h
  rw [show "summary_".toList =
    's' :: 'u' :: 'm' :: 'm' :: 'a' :: 'r' :: 'y' :: '_' :: [] from rfl] at h
  simp at h

theorem summaryRowsFor_pairs_nodup (id : Nat) (st : List Char)
    (sC : List (List Char)) :
    ((summaryRowsFor id st sC).map
      (fun c => (c.chunk_type, c.chunk_index))).Nodup := by
  rw [summaryRowsFor_pairs]
  exact (List.nodup_range _).map
    (fun a b h => by simpa using congrArg Prod.snd h)

/-- Every chunk row in the flattened summary groups carries the tag of a
summaries row with non-empty content. -/
theorem summary_flatten_types (id : Nat) :
    ∀ (fs : List SummaryRow) (x : ChunkRow),
      x ∈ (fs.map (fun s => if s.content = [] then [] else
          summaryRowsFor id s.summary_type
            (chunkTextRun s.content 500 100))).flatten →
      ∃ s ∈ fs, s.content ≠ [] ∧
        x.chunk_type = "summary_".toList ++ s.summary_type := by
  intro fs x hx
  obtain ⟨g, hg, hxg⟩ := List.mem_flatten.mp hx
  obtain ⟨s, hs, rfl⟩ := List.mem_map.mp hg
  by_cases hc : s.content = []
  · rw [if_pos hc] at hxg
    simp at hxg
  · rw [if_neg hc] at hxg
    exact ⟨s, hs, hc, summaryRowsFor_type id s.summary_type _ x hxg⟩

theorem summary_flatten_pairs_nodup (id : Nat) :
    ∀ (fs : List SummaryRow),
      ((fs.filter (fun s => !(s.content = []))).map
        (fun s => s.summary_type)).Nodup →
      (((fs.map (fun s => if s.content = [] then [] else
          summaryRowsFor id s.summary_type
            (chunkTextRun s.content 500 100))).flatten).map
        (fun c => (c.chunk_type, c.chunk_index))).Nodup := by
  intro fs
  induction fs with
  | nil => intro _; simp
  | cons s fs ih =>
    intro hnd
    by_cases hc : s.content = []
    · rw [List.map_cons, if_pos hc, List.flatten_cons, List.nil_append]
      apply ih
      rw [List.filter_cons, if_neg (by simp [hc])] at hnd
      exact hnd
    · rw [List.filter_cons, if_pos (by simp [hc])] at hnd
      rw [List.map_cons, if_neg hc, List.flatten_cons, List.map_append,
        List.nodup_append]
      obtain ⟨hout, hndtail⟩ := List.nodup_cons.mp (by
        simpa only [List.map_cons] using hnd)
      refine ⟨summaryRowsFor_pairs_nodup id s.summary_type _, ih hndtail, ?_⟩
      intro a ha hb
      obtain ⟨r, hr, rfl⟩ := List.mem_map.mp ha
      obtain ⟨r2, hr2, hpair⟩ := List.mem_map.mp hb
      obtain ⟨u, hu, hune, huty⟩ := summary_flatten_types id fs r2 hr2
      have h1 : r.chunk_type = "summary_".toList ++ s.summary_type :=
        summaryRowsFor_type id s.summary_type _ r hr
      have h2 : r.chunk_type = "summary_".toList ++ u.summary_type := by
        rw [show r.chunk_type = r2.chunk_type from
          congrArg Prod.fst hpair.symm, huty]
      have : u.summary_type = s.summary_type :=
        List.append_cancel_left (h2.symm.trans h1)
      apply hout
      rw [← this]
      exact List.mem_map.mpr ⟨u,
        List.mem_filter.mpr ⟨hu, by simpa using hune⟩, rfl⟩

/-- Under distinct summary types, filtering the flattened groups for one
summary's partition tag recovers exactly that summary's rows. -/
theorem summary_flatten_filter (id : Nat) :
    ∀ (fs : List SummaryRow),
      ((fs.filter (fun t => !(t.content = []))).map
        (fun t => t.summary_type)).Nodup →
      ∀ s ∈ fs, s.content ≠ [] →
      ((fs.map (fun t => if t.content = [] then [] else
          summaryRowsFor id t.summary_type
            (chunkTextRun t.content 500 100))).flatten).filter
        (fun c => c.chunk_type = "summary_".toList ++ s.summary_type) =
      summaryRowsFor id s.summary_type (chunkTextRun s.content 500 100) := by
  intro fs
  induction fs with
  | nil =>
    intro _ s hs
    simp at hs
  | cons t fs ih =>
    intro hnd s hs hc
    rw [List.map_cons, List.flatten_cons, List.filter_append]
    rcases List.mem_cons.mp hs with rfl | hs2
    · rw [List.filter_cons, if_pos (by simp [hc])] at hnd
      obtain ⟨hout, _⟩ := List.nodup_cons.mp (by
        simpa only [List.map_cons] using hnd)
      rw [if_neg hc]
      have hhead : (summaryRowsFor id s.summary_type
          (chunkTextRun s.content 500 100)).filter
          (fun c => c.chunk_type = "summary_".toList ++ s.summary_type) =
          summaryRowsFor id s.summary_type (chunkTextRun s.content 500 100) :=
        List.filter_eq_self.mpr (fun r hr => by
          rw [summaryRowsFor_type id s.summary_type _ r hr]
          simp)
      have htail : ((fs.map (fun t => if t.content = [] then [] else
          summaryRowsFor id t.summary_type
            (chunkTextRun t.content 500 100))).flatten).filter
          (fun c => c.chunk_type = "summary_".toList ++ s.summary_type)
          = [] := by
        rw [List.filter_eq_nil_iff]
        intro r hr
        obtain ⟨u, hu, hune, huty⟩ := summary_flatten_types id fs r hr
        rw [huty]
        simp only [decide_eq_true_eq]
        intro heq
        apply hout
        rw [← List.append_cancel_left heq]
        exact List.mem_map.mpr ⟨u,
          List.mem_filter.mpr ⟨hu, by simpa using hune⟩, rfl⟩
      rw [hhead, htail, List.append_nil]
    · by_cases htc : t.content = []
      · rw [if_pos htc]
        rw [List.filter_cons, if_neg (by simp [htc])] at hnd
        rw [show (List.filter (fun c =>
          c.chunk_type = "summary_".toList ++ s.summary_type) [] :
            List ChunkRow) = [] from rfl, List.nil_append]
        exact ih hnd s hs2 hc
      · rw [List.filter_cons, if_pos (by simp [htc])] at hnd
        obtain ⟨hout, hndtail⟩ := List.nodup_cons.mp (by
          simpa only [List.map_cons] using hnd)
        rw [if_neg htc]
        have hhead : (summaryRowsFor id t.summary_type
            (chunkTextRun t.content 500 100)).filter
            (fun c => c.chunk_type = "summary_".toList ++ s.summary_type)
            = [] := by
          rw [List.filter_eq_nil_iff]
          intro r hr
          rw [summaryRowsFor_type id t.summary_type _ r hr]
          simp only [decide_eq_true_eq]
          intro heq
          apply hout
          rw [List.append_cancel_left heq]
          exact List.mem_map.mpr ⟨s,
            List.mem_filter.mpr ⟨hs2, by simpa using hc⟩, rfl⟩
        rw [hhead, List.nil_append]
        exact ih hndtail s hs2 hc

/-- The chunks a document holds after one run of the replacement are
exactly the rows that run inserted (the delete step removed all others). -/
theorem chunksFor_after_add (db : DBState) (id : Nat)
    (call : EarningsCallRow)
    (hfind : db.calls.find? (fun c => c.id = id) = some call) :
    chunksFor (add_earnings_embeddings true db id true true).2 id =
      newEarningsChunks id call db.summaries true true := by
  simp only [add_earnings_embeddings, Bool.not_true, Bool.false_eq_true,
    if_false, hfind]
  show (db.chunks.filter (fun c => !(c.earnings_call_id = id)) ++
      newEarningsChunks id call db.summaries true true).filter
    (fun c => c.earnings_call_id = id) = _
  rw [List.filter_append]
  have h1 : (db.chunks.filter
      (fun c => !(c.earnings_call_id = id))).filter
      (fun c => c.earnings_call_id = id) = [] := by
    rw [List.filter_filter, List.filter_eq_nil_iff]
    intro a _
    cases h : decide (a.earnings_call_id = id) <;> simp [h]
  have h2 : (newEarningsChunks id call db.summaries true true).filter
      (fun c => c.earnings_call_id = id) =
      newEarningsChunks id call db.summaries true true :=
    List.filter_eq_self.mpr (fun r hr => by
      rw [newEarningsChunks_ecid id call db.summaries true true r hr]
      simp)
  rw [h1, h2, List.nil_append]

/-- C9: after a full replacement by `add_earnings_embeddings` (with
distinct summary types per call, as `save_summaries` guarantees by writing
one row per dict key), the chunks stored for the document have pairwise
distinct `(partition tag, sequence index)` pairs despite the batched
inserts; the transcript indices are exactly the global positions
`0..n-1`; and each summary partition's indices restart at `0..k-1` within
that partition only. -/
theorem claim_C9_unique_chunk_indices (db : DBState) (id : Nat)
    (call : EarningsCallRow)
    (hfind : db.calls.find? (fun c => c.id = id) = some call)
    (hnd : (((db.summaries.filter
        (fun s => s.earnings_call_id = id)).filter
        (fun s => !(s.content = []))).map
      (fun s => s.summary_type)).Nodup) :
    ((chunksFor (add_earnings_embeddings true db id true true).2 id).map
      (fun c => (c.chunk_type, c.chunk_index))).Nodup ∧
    ((chunksFor (add_earnings_embeddings true db id true true).2 id).filter
        (fun c => c.chunk_type = "transcript".toList)).map
      (fun c => c.chunk_index) =
      List.range (chunkTextRun call.raw_transcript 1000 100).length ∧
    (∀ s ∈ db.summaries, s.earnings_call_id = id → s.content ≠ [] →
      ((chunksFor
          (add_earnings_embeddings true db id true true).2 id).filter
          (fun c => c.chunk_type = "summary_".toList ++ s.summary_type)).map
        (fun c => c.chunk_index) =
        List.range (chunkTextRun s.content 500 100).length) := by
  rw [chunksFor_after_add db id call hfind]
  unfold newEarningsChunks summaryGroups
  simp only [Bool.true_and, if_true]
  set fs := db.summaries.filter (fun s => s.earnings_call_id = id) with hfs
  have hT : ∀ (T : List ChunkRow),
      (T = [] ∨ T = transcriptRows id
        (chunkTextRun call.raw_transcript 1000 100)) →
      (∀ r ∈ T, r.chunk_type = "transcript".toList) := by
    rintro T (rfl | rfl)
    · simp
    · exact transcriptRows_type id _
  by_cases hraw : call.raw_transcript = []
  · rw [if_neg (by simp [hraw])]
    rw [List.nil_append]
    refine ⟨summary_flatten_pairs_nodup id fs hnd, ?_, ?_⟩
    · rw [hraw]
      rw [show chunkTextRun [] 1000 100 = [] from rfl]
      simp only [List.length_nil, List.range_zero]
      rw [List.map_eq_nil_iff, List.filter_eq_nil_iff]
      intro r hr
      obtain ⟨u, _, _, huty⟩ := summary_flatten_types id fs r hr
      rw [huty]
      simp only [decide_eq_true_eq]
      exact summaryTag_ne_transcript u.summary_type
    · intro s hsmem hsid hsc
      rw [summary_flatten_filter id fs hnd s
        (List.mem_filter.mpr ⟨hsmem, by simpa using hsid⟩) hsc]
      exact summaryRowsFor_indices id s.summary_type _
  · rw [if_pos (by simp [hraw])]
    have hflatT : ∀ r ∈ (fs.map (fun s => if s.content = [] then [] else
        summaryRowsFor id s.summary_type
          (chunkTextRun s.content 500 100))).flatten,
        ¬(r.chunk_type = "transcript".toList) := by
      intro r hr
      obtain ⟨u, _, _, huty⟩ := summary_flatten_types id fs r hr
      rw [huty]
      exact summaryTag_ne_transcript u.summary_type
    refine ⟨?_, ?_, ?_⟩
    · rw [List.map_append, List.nodup_append]
      refine ⟨?_, summary_flatten_pairs_nodup id fs hnd, ?_⟩
      · rw [transcriptRows_pairs]
        exact (List.nodup_range _).map
          (fun a b h => by simpa using congrArg Prod.snd h)
      · intro a ha hb
        obtain ⟨r, hr, rfl⟩ := List.mem_map.mp ha
        obtain ⟨r2, hr2, hpair⟩ := List.mem_map.mp hb
        apply hflatT r2 hr2
        rw [show r2.chunk_type = r.chunk_type from
          congrArg Prod.fst hpair, transcriptRows_type id _ r hr]
    · rw [List.filter_append]
      have h1 : (transcriptRows id
          (chunkTextRun call.raw_transcript 1000 100)).filter
          (fun c => c.chunk_type = "transcript".toList) =
          transcriptRows id (chunkTextRun call.raw_transcript 1000 100) :=
        List.filter_eq_self.mpr (fun r hr => by
          rw [transcriptRows_type id _ r hr]
          simp)
      have h2 : ((fs.map (fun s => if s.content = [] then [] else
          summaryRowsFor id s.summary_type
            (chunkTextRun s.content 500 100))).flatten).filter
          (fun c => c.chunk_type = "transcript".toList) = [] := by
        rw [List.filter_eq_nil_iff]
        intro r hr
        simpa using hflatT r hr
      rw [h1, h2, List.append_nil]
      exact transcriptRows_indices id _
    · intro s hsmem hsid hsc
      rw [List.filter_append]
      have h1 : (transcriptRows id
          (chunkTextRun call.raw_transcript 1000 100)).filter
          (fun c => c.chunk_type = "summary_".toList ++ s.summary_type)
          = [] := by
        rw [List.filter_eq_nil_iff]
        intro r hr
        rw [transcriptRows_type id _ r hr]
        simp only [decide_eq_true_eq]
        intro heq
        exact summaryTag_ne_transcript s.summary_type heq.symm
      rw [h1, List.nil_append]
      rw [summary_flatten_filter id fs hnd s
        (List.mem_filter.mpr ⟨hsmem, by simpa using hsid⟩) hsc]
      exact summaryRowsFor_indices id s.summary_type _

theorem claim_C9_unique_chunk_indices_witness :
    ((chunksFor (add_earnings_embeddings true
        (DBState.mk [⟨1, "hello world".toList⟩]
          [⟨5, 1, "executive".toList, "great quarter".toList⟩] [] [] [])
        1 true true).2 1).map
      (fun c => (c.chunk_type, c.chunk_index))).Nodup :=
  (claim_C9_unique_chunk_indices
    (DBState.mk [⟨1, "hello world".toList⟩]
      [⟨5, 1, "executive".toList, "great quarter".toList⟩] [] [] [])
    1 ⟨1, "hello world".toList⟩ rfl (by decide)).1

/-! ## Sanity checks for the chunker embedding -/

example : pySplit "a  b c".toList = ["a".toList, "b".toList, "c".toList] := by decide

example : chunk_text "a b c d e".toList 2 1 =
    .ok ["a b".toList, "b c".toList, "c d".toList, "d e".toList] := rfl

example : chunk_text "a b c d e".toList 3 1 =
    .ok ["a b c".toList, "c d e".toList] := rfl

example : chunk_text "".toList 1000 100 = .ok [] := rfl

example : chunk_text "a b".toList 2 2 = .error () := rfl

example : chunk_text "a b".toList 2 3 = .ok [] := rfl

end EarningsSummarizer
